import Mathlib

/-!
# Verification of the CherryTree-to-org timeline reconstruction (t.py)

Shallow embedding of `2019-12-22-cherrytree-to-org/t.py`.

Modelling conventions:

* Timestamps are natural numbers.  The Python code turns the XML attribute
  string into a float with `float(...)` and then into a `datetime` with
  `datetime.fromtimestamp`; only the ordering of timestamps matters anywhere
  in the program, so `Nat` stands in for `datetime` and
  `datetime.fromtimestamp` is the identity.
* An XML timestamp attribute (`node.get('ts_creation')`) is `none` when the
  attribute is absent (Python `None`).  A present attribute is a string on
  which the code calls `float`; we model only the outcome of that call with
  `AttrVal`: either the string parses as the number `n` (`AttrVal.num n`) or
  `float` raises `ValueError` (`AttrVal.malformed`).
* Python exceptions are modelled with `Except PyErr`.  `StopIteration`
  escaping a generator is a `RuntimeError` (PEP 479).
* `collections.Counter` is modelled as an insertion-ordered association list
  (`Counter`): `seen[k] += 1` updates an existing key in place and appends a
  missing key at the end with value 1; reading a missing key yields 0 without
  inserting it.  `sorted(seen.items())` sorts the (key, value) pairs
  lexicographically, exactly as Python compares tuples.
* Python's `sorted` is a stable sort; on `(time, index)` pairs it orders
  lexicographically.  Any stable sort agrees with it, and we use
  `List.insertionSort` with the lexicographic order `evLE`.
* The generators are modelled as functions producing whole lists.  The one
  place where laziness is observable is the `seen` counter, which
  `no_consecutive_duplicates` yields *by reference*: each `Entry.text` holds
  the document rendered from the counter state at the moment the triple was
  yielded, which is exactly what the single-pass consumer
  (`commit_documents_by_time`, which joins `entry.text` before pulling the
  next entry) observes.
-/

/-- Python exceptions that the modelled code can raise. -/
inductive PyErr where
  | typeError
  | valueError
  | runtimeError
  | assertionError
  | keyError
deriving DecidableEq, Repr

instance {ε α : Type} [DecidableEq ε] [DecidableEq α] : DecidableEq (Except ε α) := fun a b =>
  match a, b with
  | .error x, .error y =>
    if h : x = y then .isTrue (by rw [h]) else .isFalse (fun he => h (Except.error.inj he))
  | .error _, .ok _ => .isFalse (fun he => Except.noConfusion he)
  | .ok _, .error _ => .isFalse (fun he => Except.noConfusion he)
  | .ok x, .ok y =>
    if h : x = y then .isTrue (by rw [h]) else .isFalse (fun he => h (Except.ok.inj he))

/-- The outcome of calling Python `float` on a present attribute string:
either it parses as the number `n`, or `float` raises `ValueError`. -/
inductive AttrVal where
  | num (n : Nat)
  | malformed
deriving DecidableEq, Repr

/-- A raw CherryTree XML `<node>` element: its `name` attribute, its
`ts_creation` and `ts_lastsave` attributes (absent or a string), the texts of
its `<rich_text>` children (Python `child.text`, with `None` modelled as
`""`, which the code treats identically), and its `<node>` children. -/
inductive RawNode where
  | mk (name : String) (ts_creation ts_lastsave : Option AttrVal)
       (rich_texts : List String) (children : List RawNode)

/-- `@dataclass class Node` from t.py. -/
structure Node where
  name : String
  header : String
  text : String
  created : Nat
  modified : Nat
deriving DecidableEq, Repr

/-- `parse_date` from t.py.  `float(None)` raises `TypeError`; an unparsable
string raises `ValueError`; a parsed value of `0` is falsy and yields `None`
(the caller then falls back to its default); otherwise
`datetime.fromtimestamp` produces the timestamp. -/
def parse_date (timestamp : Option AttrVal) : Except PyErr (Option Nat) :=
  match timestamp with
  | none => .error .typeError
  | some .malformed => .error .valueError
  | some (.num n) => if n = 0 then .ok none else .ok (some n)

/-- `'*' * level` -/
def stars (level : Nat) : String :=
  String.mk (List.replicate level '*')

/-- Python `str.rstrip()`: drop trailing whitespace. -/
def rstrip (s : String) : String :=
  String.mk ((s.data.reverse.dropWhile Char.isWhitespace).reverse)

/-- One line of `asterisk_re.sub(r"\\ast{}", ...)`: the pattern `^\*` (with
`re.M`) matches a single leading asterisk of the line, which is replaced by
the literal replacement text. -/
def escapeLeadingAst (l : List Char) : List Char :=
  match l with
  | '*' :: rest => "\\ast\x7b\x7d".data ++ rest
  | l => l

/-- Split a character list at `'\n'`, like Python `s.split("\n")`
(the `re.M` anchor `^` matches at the string start and after every
newline). -/
def splitOnNewline : List Char → List (List Char)
  | [] => [[]]
  | c :: rest =>
    if c = '\n' then [] :: splitOnNewline rest
    else
      match splitOnNewline rest with
      | [] => [[c]]
      | p :: ps => (c :: p) :: ps

/-- Rejoin the lines split by `splitOnNewline`. -/
def joinLines : List (List Char) → List Char
  | [] => []
  | [p] => p
  | p :: ps => p ++ '\n' :: joinLines ps

/-- `asterisk_re.sub(r"\\ast{}", s)` with `asterisk_re = re.compile(r"^\*", re.M)`. -/
def subLeadingAst (s : String) : String :=
  String.mk (joinLines ((splitOnNewline s.data).map escapeLeadingAst))

/-- The body-text assembly of `render_node`: skip falsy (empty) fragments,
escape leading asterisks, strip trailing whitespace, append a newline after
each fragment, and join. -/
def fragmentText (frags : List String) : String :=
  String.join ((frags.filter (fun s => s ≠ "")).map
    (fun s => rstrip (subLeadingAst s) ++ "\n"))

/-- `f"{'*' * level} {name}\n"` -/
def headerOf (level : Nat) (name : String) : String :=
  stars level ++ " " ++ name ++ "\n"

mutual

/-- `render_node` from t.py: resolve `created` and `modified` (raising on a
bad attribute, falling back to the inherited defaults on a falsy one), build
the node, and recurse into the `<node>` children with the resolved values as
their defaults.  The produced node precedes its children's nodes
(pre-order). -/
def render_node : RawNode → Nat → Nat → Nat → Except PyErr (List Node)
  | .mk name tsc tsl rts children, level, default_created, default_modified => do
    let createdOpt ← parse_date tsc
    let created := createdOpt.getD default_created
    let modifiedOpt ← parse_date tsl
    let modified := modifiedOpt.getD default_modified
    let text := fragmentText rts
    let rest ← render_children children (level + 1) created modified
    .ok (⟨name, headerOf level name, text, created, modified⟩ :: rest)

/-- `yield from` over a list of sibling subtrees. -/
def render_children : List RawNode → Nat → Nat → Nat → Except PyErr (List Node)
  | [], _, _, _ => .ok []
  | c :: cs, level, dc, dm => do
    let first ← render_node c level dc dm
    let rest ← render_children cs level dc dm
    .ok (first ++ rest)

end

/-- `parse_nodes` / `render_nodes` from t.py: every direct child of the root
element is rendered at level 1 with `datetime.now()` (the parameter `now`) as
both defaults. -/
def parse_nodes (rootChildren : List RawNode) (now : Nat) : Except PyErr (List Node) :=
  render_children rootChildren 1 now now

/-- The lexicographic order Python uses when sorting `(time, index)` (and
`(key, value)`) tuples of numbers. -/
def evLE (a b : Nat × Nat) : Prop :=
  a.1 < b.1 ∨ (a.1 = b.1 ∧ a.2 ≤ b.2)

instance : DecidableRel evLE := fun _ _ =>
  inferInstanceAs (Decidable (_ ∨ _ ∧ _))

instance : IsTotal (Nat × Nat) evLE :=
  ⟨fun a b => by unfold evLE; omega⟩

instance : IsTrans (Nat × Nat) evLE :=
  ⟨fun a b c => by unfold evLE; omega⟩

/-- The unsorted event list
`((n.created, i), (n.modified, i)) for i, n in enumerate(nodes)`, flattened. -/
def eventsOf (nodes : List Node) : List (Nat × Nat) :=
  (nodes.enum.map (fun p => [(p.2.created, p.1), (p.2.modified, p.1)])).flatten

/-- `times = sorted(...)` from `get_documents_by_time`. -/
def sortEvents (l : List (Nat × Nat)) : List (Nat × Nat) :=
  List.insertionSort evLE l

/-- `collections.Counter` with the keys in insertion order. -/
abbrev Counter := List (Nat × Nat)

/-- `seen[k]`: reading a `Counter` returns 0 for a missing key (and, as in
Python, does not insert it). -/
def counterGet : Counter → Nat → Nat
  | [], _ => 0
  | kv :: rest, k => if kv.1 = k then kv.2 else counterGet rest k

/-- `seen[k] += 1`: update an existing key in place, or append a new key at
the end with value 1 (dict insertion order). -/
def counterIncr : Counter → Nat → Counter
  | [], k => [(k, 1)]
  | kv :: rest, k =>
    if kv.1 = k then (kv.1, kv.2 + 1) :: rest else kv :: counterIncr rest k

/-- The `for t, node_id in times:` loop body of `no_consecutive_duplicates`,
plus the final `yield` after the loop.  The yielded counter is the state of
`seen` at the moment of the `yield` (see the module comment on laziness);
note that the boundary `yield` happens *after* `seen[node_id] += 1` has
already counted the first event of the next run. -/
def scanLoop : List (Nat × Nat) → Nat → Nat → Counter → List (Nat × Nat × Counter)
  | [], last_t, last_id, seen => [(last_t, last_id, seen)]
  | (t, id) :: rest, last_t, last_id, seen =>
    let seen' := counterIncr seen id
    if id ≠ last_id then
      (last_t, last_id, seen') :: scanLoop rest t id seen'
    else
      scanLoop rest t id seen'

/-- `no_consecutive_duplicates` from t.py.  On an empty event list,
`next(times_iter)` raises `StopIteration`, which PEP 479 turns into a
`RuntimeError`.  Otherwise the head event seeds `last_t, last_id` and is
counted once — and then the `for` loop iterates over the *list* `times`
again (not over `times_iter`), so the head event is counted a second
time. -/
def no_consecutive_duplicates (times : List (Nat × Nat)) :
    Except PyErr (List (Nat × Nat × Counter)) :=
  match times with
  | [] => .error .runtimeError
  | (t0, id0) :: _ => .ok (scanLoop times t0 id0 (counterIncr [] id0))

/-- The body of the `document` generator, iterating over the already-sorted
`seen.items()`.  `assert times_seen` raises `AssertionError` on a zero
value; `nodes_by_index[node_id]` raises `KeyError` on an unknown index; the
header is yielded for every listed node and the text additionally when the
node has been seen exactly twice and its text is truthy.  An exception
thrown part-way loses the earlier lines, exactly as `"".join(entry.text)`
would. -/
def docLines (nodes : List Node) : List (Nat × Nat) → Except PyErr (List String)
  | [] => .ok []
  | kv :: rest =>
    if kv.2 = 0 then .error .assertionError
    else
      match nodes[kv.1]? with
      | none => .error .keyError
      | some nd =>
        (docLines nodes rest).map
          (fun ls => nd.header :: ((if kv.2 = 2 ∧ nd.text ≠ "" then [nd.text] else []) ++ ls))

/-- `document(seen)` from t.py: sort the counter items by key
(`sorted(seen.items())`) and yield the lines. -/
def document (nodes : List Node) (seen : Counter) : Except PyErr (List String) :=
  docLines nodes (List.insertionSort evLE seen)

/-- `@dataclass class Entry` from t.py.  `text` holds the outcome of
materialising the lazy `document(counts)` iterator at the moment the entry
is yielded. -/
structure Entry where
  time : Nat
  node : Node
  description : String
  text : Except PyErr (List String)
deriving DecidableEq

/-- The `for t, node_id, counts in no_consecutive_duplicates(times):` loop of
`get_documents_by_time`, building one `Entry` per triple.
`nodes_by_index[node_id]` raises `KeyError` on an unknown index. -/
def entryList (nodes : List Node) : List (Nat × Nat × Counter) → Except PyErr (List Entry)
  | [] => .ok []
  | (t, id, c) :: rest =>
    match nodes[id]? with
    | none => .error .keyError
    | some nd =>
      (entryList nodes rest).map
        (fun es => ⟨t, nd, if counterGet c id = 2 then "" else "section: ",
                    document nodes c⟩ :: es)

/-- The part of `get_documents_by_time` that is a function of the flattened
node list: build the events, sort them, run the scan, emit the entries. -/
def entriesOf (nodes : List Node) : Except PyErr (List Entry) := do
  let times := sortEvents (eventsOf nodes)
  let trs ← no_consecutive_duplicates times
  entryList nodes trs

/-- `get_documents_by_time` from t.py, taking the direct children of the XML
root and the value of `datetime.now()`. -/
def get_documents_by_time (rootChildren : List RawNode) (now : Nat) :
    Except PyErr (List Entry) := do
  let nodes ← parse_nodes rootChildren now
  entriesOf nodes

/-! ## Reference formulations used to state corrected claims -/

/-- The counter obtained by counting each event of `l` once, in order. -/
def counterOfEvents (l : List (Nat × Nat)) : Counter :=
  l.foldl (fun c e => counterIncr c e.2) []

/-- Reference formulation of the scan, carrying the explicit list of events
counted so far instead of a mutable counter: every emitted triple's counter
is `counterOfEvents` of the `processed` list at the moment of emission, and
`processed` grows by each event *before* the boundary test, so a boundary
triple also counts the first event of the run that follows it. -/
def scanRef : List (Nat × Nat) → (Nat × Nat) → List (Nat × Nat) →
    List (Nat × Nat × Counter)
  | [], last, processed => [(last.1, last.2, counterOfEvents processed)]
  | e :: rest, last, processed =>
    if e.2 ≠ last.2 then
      (last.1, last.2, counterOfEvents (processed ++ [e])) :: scanRef rest e (processed ++ [e])
    else
      scanRef rest e (processed ++ [e])

/-- Group a list of events into maximal runs of consecutive events that share
the same node index. -/
def chunks : List (Nat × Nat) → List (List (Nat × Nat))
  | [] => []
  | e :: rest =>
    match chunks rest with
    | [] => [[e]]
    | r :: rs => if (r.headD (0, 0)).2 = e.2 then (e :: r) :: rs else [e] :: r :: rs

/-- Node A of the spec's worked example, as `parse_nodes` flattens it:
name "A", level-1 header, body fragment "hello", created and modified
both `t1`. -/
def c1NodeA (t1 : Nat) : Node :=
  ⟨"A", "* A\n", "hello\n", t1, t1⟩

/-- Node B of the spec's worked example: name "B", body fragment "world",
created `t2`, modified `t3`. -/
def c1NodeB (t2 t3 : Nat) : Node :=
  ⟨"B", "* B\n", "world\n", t2, t3⟩

/-- Placeholder node used only as the default of `List.getLastD` /
`List.getD` in statements whose hypotheses rule the default out. -/
def dummyNode : Node := ⟨"", "", "", 0, 0⟩

/-- Placeholder entry, in the same role as `dummyNode`. -/
def dummyEntry : Entry := ⟨0, dummyNode, "", .ok []⟩

/-! ## Helper lemmas about `Counter` -/

theorem counterGet_incr_self (c : Counter) (k : Nat) :
    counterGet (counterIncr c k) k = counterGet c k + 1 := by
  induction c with
  | nil => simp [counterGet, counterIncr]
  | cons kv rest ih =>
    by_cases h : kv.1 = k
    · simp [counterGet, counterIncr, h]
    · simp [counterGet, counterIncr, h, ih]

theorem counterGet_incr_ne (c : Counter) (k j : Nat) (hjk : j ≠ k) :
    counterGet (counterIncr c k) j = counterGet c j := by
  induction c with
  | nil =>
    have hkj : ¬ k = j := fun h => hjk h.symm
    simp [counterGet, counterIncr, hkj]
  | cons kv rest ih =>
    by_cases h : kv.1 = k
    · have hkj : ¬ k = j := fun h2 => hjk h2.symm
      simp [counterGet, counterIncr, h, hkj]
    · by_cases h2 : kv.1 = j <;>
        simp [counterGet, counterIncr, h, h2, hjk, ih]

theorem counterIncr_pos (c : Counter) (k : Nat) (hc : ∀ kv ∈ c, 0 < kv.2) :
    ∀ kv ∈ counterIncr c k, 0 < kv.2 := by
  induction c with
  | nil => simp [counterIncr]
  | cons kv rest ih =>
    intro kv' hkv'
    unfold counterIncr at hkv'
    by_cases h : kv.1 = k
    · simp only [h, if_pos rfl] at hkv'
      rcases List.mem_cons.mp hkv' with h1 | h1
      · subst h1; simp
      · exact hc kv' (List.mem_cons_of_mem _ h1)
    · simp only [if_neg h] at hkv'
      rcases List.mem_cons.mp hkv' with h1 | h1
      · subst h1; exact hc kv' (List.mem_cons_self _ _)
      · exact ih (fun kv2 h2 => hc kv2 (List.mem_cons_of_mem _ h2)) kv' h1

theorem counterIncr_keys (c : Counter) (k : Nat) (P : Nat → Prop)
    (hc : ∀ kv ∈ c, P kv.1) (hk : P k) :
    ∀ kv ∈ counterIncr c k, P kv.1 := by
  induction c with
  | nil => simp [counterIncr]; exact hk
  | cons kv rest ih =>
    intro kv' hkv'
    unfold counterIncr at hkv'
    by_cases h : kv.1 = k
    · simp only [h, if_pos rfl] at hkv'
      rcases List.mem_cons.mp hkv' with h1 | h1
      · subst h1; simpa [h] using hc kv (List.mem_cons_self _ _)
      · exact hc kv' (List.mem_cons_of_mem _ h1)
    · simp only [if_neg h] at hkv'
      rcases List.mem_cons.mp hkv' with h1 | h1
      · subst h1; exact hc kv' (List.mem_cons_self _ _)
      · exact ih (fun kv2 h2 => hc kv2 (List.mem_cons_of_mem _ h2)) kv' h1

theorem counterGet_mem (c : Counter) (k : Nat) (h : counterGet c k ≠ 0) :
    (k, counterGet c k) ∈ c := by
  induction c with
  | nil => simp [counterGet] at h
  | cons kv rest ih =>
    by_cases hk : kv.1 = k
    · simp only [counterGet, if_pos hk]
      have hkv : (k, kv.2) = kv := by rw [← hk]
      rw [hkv]
      exact List.mem_cons_self _ _
    · simp only [counterGet, if_neg hk] at h ⊢
      exact List.mem_cons_of_mem _ (ih h)

theorem counterGet_foldl (times : List (Nat × Nat)) (s : Counter) (j : Nat) :
    counterGet (times.foldl (fun c e => counterIncr c e.2) s) j =
      counterGet s j + times.countP (fun e => e.2 == j) := by
  induction times generalizing s with
  | nil => simp
  | cons e rest ih =>
    simp only [List.foldl_cons, ih, List.countP_cons]
    by_cases h : e.2 = j
    · subst h; simp [counterGet_incr_self]; omega
    · have : ¬ (e.2 == j) = true := by simpa using h
      simp [counterGet_incr_ne _ _ _ (fun hj => h hj.symm), this]

/-! ## Helper lemmas about the timeline scan -/

theorem scanLoop_ne_nil (times : List (Nat × Nat)) (t i : Nat) (s : Counter) :
    scanLoop times t i s ≠ [] := by
  induction times generalizing t i s with
  | nil => simp [scanLoop]
  | cons e rest ih =>
    obtain ⟨et, ei⟩ := e
    unfold scanLoop
    by_cases h : ei ≠ i
    · simp [h]
    · simpa [h] using ih et ei (counterIncr s ei)

theorem scanLoop_pos (times : List (Nat × Nat)) (t i : Nat) (s : Counter)
    (hs : ∀ kv ∈ s, 0 < kv.2) :
    ∀ tr ∈ scanLoop times t i s, ∀ kv ∈ tr.2.2, 0 < kv.2 := by
  induction times generalizing t i s with
  | nil =>
    intro tr htr
    simp only [scanLoop, List.mem_singleton] at htr
    subst htr
    exact hs
  | cons e rest ih =>
    obtain ⟨et, ei⟩ := e
    intro tr htr
    unfold scanLoop at htr
    have hs' := counterIncr_pos s ei hs
    by_cases h : ei ≠ i
    · simp only [if_pos h] at htr
      rcases List.mem_cons.mp htr with h1 | h1
      · subst h1; exact hs'
      · exact ih et ei (counterIncr s ei) hs' tr h1
    · simp only [if_neg h] at htr
      exact ih et ei (counterIncr s ei) hs' tr htr

theorem scanLoop_keys (times : List (Nat × Nat)) (t i : Nat) (s : Counter) (n : Nat)
    (hs : ∀ kv ∈ s, kv.1 < n) (hev : ∀ e ∈ times, e.2 < n) :
    ∀ tr ∈ scanLoop times t i s, ∀ kv ∈ tr.2.2, kv.1 < n := by
  induction times generalizing t i s with
  | nil =>
    intro tr htr
    simp only [scanLoop, List.mem_singleton] at htr
    subst htr
    exact hs
  | cons e rest ih =>
    obtain ⟨et, ei⟩ := e
    intro tr htr
    unfold scanLoop at htr
    have hei : ei < n := hev (et, ei) (List.mem_cons_self _ _)
    have hs' := counterIncr_keys s ei (fun k => k < n) hs hei
    have hev' : ∀ e ∈ rest, e.2 < n := fun e he => hev e (List.mem_cons_of_mem _ he)
    by_cases h : ei ≠ i
    · simp only [if_pos h] at htr
      rcases List.mem_cons.mp htr with h1 | h1
      · subst h1; exact hs'
      · exact ih et ei (counterIncr s ei) hs' hev' tr h1
    · simp only [if_neg h] at htr
      exact ih et ei (counterIncr s ei) hs' hev' tr htr

theorem scanLoop_ids (times : List (Nat × Nat)) (t i : Nat) (s : Counter) (n : Nat)
    (hi : i < n) (hev : ∀ e ∈ times, e.2 < n) :
    ∀ tr ∈ scanLoop times t i s, tr.2.1 < n := by
  induction times generalizing t i s with
  | nil =>
    intro tr htr
    simp only [scanLoop, List.mem_singleton] at htr
    subst htr
    exact hi
  | cons e rest ih =>
    obtain ⟨et, ei⟩ := e
    intro tr htr
    unfold scanLoop at htr
    have hei : ei < n := hev (et, ei) (List.mem_cons_self _ _)
    have hev' : ∀ e ∈ rest, e.2 < n := fun e he => hev e (List.mem_cons_of_mem _ he)
    by_cases h : ei ≠ i
    · simp only [if_pos h] at htr
      rcases List.mem_cons.mp htr with h1 | h1
      · subst h1; exact hi
      · exact ih et ei (counterIncr s ei) hei hev' tr h1
    · simp only [if_neg h] at htr
      exact ih et ei (counterIncr s ei) hei hev' tr htr

theorem scanLoop_chain (times : List (Nat × Nat)) (t i : Nat) (s : Counter)
    (hsorted : times.Pairwise (fun a b => a.1 ≤ b.1))
    (hge : ∀ e ∈ times, t ≤ e.1) :
    List.Chain' (fun a b => a.1 ≤ b.1) (scanLoop times t i s) ∧
      ∀ tr ∈ scanLoop times t i s, t ≤ tr.1 := by
  induction times generalizing t i s with
  | nil =>
    refine ⟨by simp [scanLoop], ?_⟩
    intro tr htr
    simp only [scanLoop, List.mem_singleton] at htr
    subst htr
    exact le_refl t
  | cons e rest ih =>
    obtain ⟨et, ei⟩ := e
    have het : t ≤ et := hge (et, ei) (List.mem_cons_self _ _)
    have hps := List.pairwise_cons.mp hsorted
    have IH := ih et ei (counterIncr s ei) hps.2 (fun e he => hps.1 e he)
    unfold scanLoop
    by_cases h : ei ≠ i
    · simp only [if_pos h]
      constructor
      · cases hrec : scanLoop rest et ei (counterIncr s ei) with
        | nil => exact absurd hrec (scanLoop_ne_nil rest et ei (counterIncr s ei))
        | cons hd tl =>
          apply List.Chain'.cons
          · have hmem : hd ∈ scanLoop rest et ei (counterIncr s ei) := by
              rw [hrec]; exact List.mem_cons_self _ _
            exact le_trans het (IH.2 hd hmem)
          · rw [← hrec]; exact IH.1
      · intro tr htr
        rcases List.mem_cons.mp htr with h1 | h1
        · subst h1; exact le_refl t
        · exact le_trans het (IH.2 tr h1)
    · simp only [if_neg h]
      exact ⟨IH.1, fun tr htr => le_trans het (IH.2 tr htr)⟩

theorem scanLoop_getLastD (times : List (Nat × Nat)) (t i : Nat) (s : Counter)
    (d : Nat × Nat × Counter) :
    ((scanLoop times t i s).getLastD d).2.2 =
      times.foldl (fun c e => counterIncr c e.2) s := by
  induction times generalizing t i s d with
  | nil => simp [scanLoop]
  | cons e rest ih =>
    obtain ⟨et, ei⟩ := e
    unfold scanLoop
    by_cases h : ei ≠ i
    · simp only [if_pos h]
      rw [List.getLastD_cons, ih]
      rfl
    · simp only [if_neg h]
      rw [ih]
      rfl

/-! ## Generic list helpers -/

theorem getLastD_mem {α : Type} (l : List α) (d : α) (h : l ≠ []) :
    l.getLastD d ∈ l := by
  induction l generalizing d with
  | nil => exact absurd rfl h
  | cons x xs ih =>
    rw [List.getLastD_cons]
    cases xs with
    | nil => simp [List.getLastD]
    | cons y ys => exact List.mem_cons_of_mem _ (ih x (by simp))

theorem getLastD_map {α β : Type} (f : α → β) (l : List α) (d₁ : α) (d₂ : β)
    (h : l ≠ []) :
    (l.map f).getLastD d₂ = f (l.getLastD d₁) := by
  induction l generalizing d₁ d₂ with
  | nil => exact absurd rfl h
  | cons x xs ih =>
    cases xs with
    | nil => simp [List.getLastD]
    | cons y ys =>
      rw [List.map_cons, List.getLastD_cons, List.getLastD_cons]
      exact ih x (f x) (by simp)

theorem except_bind_ok {ε α β : Type} (x : Except ε α) (f : α → Except ε β) (b : β) :
    (x >>= f = .ok b) ↔ ∃ a, x = .ok a ∧ f a = .ok b := by
  cases x with
  | error e => simp [Bind.bind, Except.bind]
  | ok a => simp [Bind.bind, Except.bind]

/-! ## Helper lemmas about events, sorting, documents and entries -/

theorem sortEvents_sorted (l : List (Nat × Nat)) : List.Sorted evLE (sortEvents l) :=
  List.sorted_insertionSort evLE l

theorem sortEvents_perm (l : List (Nat × Nat)) : (sortEvents l).Perm l :=
  List.perm_insertionSort evLE l

theorem eventsOf_ids_lt (nodes : List Node) :
    ∀ e ∈ eventsOf nodes, e.2 < nodes.length := by
  intro e he
  unfold eventsOf at he
  rw [List.mem_flatten] at he
  obtain ⟨l, hl, hel⟩ := he
  rw [List.mem_map] at hl
  obtain ⟨p, hp, rfl⟩ := hl
  obtain ⟨i, nd⟩ := p
  have hen := List.mem_enum hp
  rcases List.mem_cons.mp hel with h1 | h1
  · subst h1; exact hen.1
  · rw [List.mem_singleton] at h1
    subst h1; exact hen.1

theorem created_event_mem (nodes : List Node) (i : Nat) (hi : i < nodes.length) :
    (nodes[i].created, i) ∈ eventsOf nodes := by
  unfold eventsOf
  rw [List.mem_flatten]
  refine ⟨[(nodes[i].created, i), (nodes[i].modified, i)], ?_, by simp⟩
  rw [List.mem_map]
  refine ⟨(i, nodes[i]), ?_, rfl⟩
  have hlen : i < nodes.enum.length := by simpa [List.enum_length] using hi
  have hmem : nodes.enum[i] ∈ nodes.enum := List.getElem_mem hlen
  rwa [List.getElem_enum] at hmem

theorem docLines_ok (nodes : List Node) (items : List (Nat × Nat))
    (h : ∀ kv ∈ items, 0 < kv.2 ∧ kv.1 < nodes.length) :
    ∃ ls, docLines nodes items = .ok ls := by
  induction items with
  | nil => exact ⟨[], rfl⟩
  | cons kv rest ih =>
    have hkv := h kv (List.mem_cons_self _ _)
    obtain ⟨ls, hls⟩ := ih (fun kv2 h2 => h kv2 (List.mem_cons_of_mem _ h2))
    have hget : nodes[kv.1]? = some nodes[kv.1] := List.getElem?_eq_getElem hkv.2
    refine ⟨nodes[kv.1].header ::
      ((if kv.2 = 2 ∧ nodes[kv.1].text ≠ "" then [nodes[kv.1].text] else []) ++ ls), ?_⟩
    unfold docLines
    rw [if_neg (by omega), hget, hls]
    rfl

theorem docLines_ne_assert (nodes : List Node) (items : List (Nat × Nat))
    (h : ∀ kv ∈ items, kv.2 ≠ 0) :
    docLines nodes items ≠ .error .assertionError := by
  induction items with
  | nil => simp [docLines]
  | cons kv rest ih =>
    unfold docLines
    rw [if_neg (h kv (List.mem_cons_self _ _))]
    cases hget : nodes[kv.1]? with
    | none => simp
    | some nd =>
      have ihr := ih (fun kv2 h2 => h kv2 (List.mem_cons_of_mem _ h2))
      cases hrest : docLines nodes rest with
      | error e =>
        cases e <;> simp_all [Except.map]
      | ok ls => simp [Except.map]

theorem docLines_header_mem (nodes : List Node) (items : List (Nat × Nat))
    (kv : Nat × Nat) (ls : List String) (nd : Node)
    (hmem : kv ∈ items) (hok : docLines nodes items = .ok ls)
    (hnd : nodes[kv.1]? = some nd) :
    nd.header ∈ ls := by
  induction items generalizing ls with
  | nil => simp at hmem
  | cons kv0 rest ih =>
    unfold docLines at hok
    by_cases h0 : kv0.2 = 0
    · rw [if_pos h0] at hok; exact absurd hok (by simp)
    · rw [if_neg h0] at hok
      cases hget : nodes[kv0.1]? with
      | none => rw [hget] at hok; exact absurd hok (by simp)
      | some nd0 =>
        rw [hget] at hok
        cases hrest : docLines nodes rest with
        | error e => rw [hrest] at hok; exact absurd hok (by simp [Except.map])
        | ok ls' =>
          rw [hrest] at hok
          simp only [Except.map, Except.ok.injEq] at hok
          subst hok
          rcases List.mem_cons.mp hmem with h1 | h1
          · subst h1
            rw [hnd] at hget
            cases hget
            exact List.mem_cons_self _ _
          · exact List.mem_cons_of_mem _
              (List.mem_append_right _ (ih ls' h1 hrest))

theorem entryList_ok_map (nodes : List Node) (trs : List (Nat × Nat × Counter))
    (es : List Entry) (h : entryList nodes trs = .ok es) :
    es = trs.map (fun tr =>
      ⟨tr.1, (nodes[tr.2.1]?).getD dummyNode,
       if counterGet tr.2.2 tr.2.1 = 2 then "" else "section: ",
       document nodes tr.2.2⟩) := by
  induction trs generalizing es with
  | nil =>
    simp only [entryList, Except.ok.injEq] at h
    subst h
    rfl
  | cons tr rest ih =>
    obtain ⟨t, id, c⟩ := tr
    unfold entryList at h
    cases hnd : nodes[id]? with
    | none => rw [hnd] at h; exact absurd h (by simp)
    | some nd =>
      rw [hnd] at h
      cases hrest : entryList nodes rest with
      | error e => rw [hrest] at h; exact absurd h (by simp [Except.map])
      | ok es' =>
        rw [hrest] at h
        simp only [Except.map, Except.ok.injEq] at h
        subst h
        simp only [List.map_cons]
        rw [← ih es' hrest, hnd]
        rfl

theorem entriesOf_ok_inv (nodes : List Node) (es : List Entry)
    (h : entriesOf nodes = .ok es) :
    ∃ t0 i0 rest,
      sortEvents (eventsOf nodes) = (t0, i0) :: rest ∧
      entryList nodes (scanLoop ((t0, i0) :: rest) t0 i0 (counterIncr [] i0)) = .ok es := by
  unfold entriesOf at h
  rw [except_bind_ok] at h
  obtain ⟨trs, h1, h2⟩ := h
  cases htimes : sortEvents (eventsOf nodes) with
  | nil =>
    rw [htimes] at h1
    exact absurd h1 (by simp [no_consecutive_duplicates])
  | cons e0 rest =>
    obtain ⟨t0, i0⟩ := e0
    rw [htimes] at h1
    simp only [no_consecutive_duplicates, Except.ok.injEq] at h1
    subst h1
    exact ⟨t0, i0, rest, rfl, h2⟩

theorem entries_time_chain (nodes : List Node) (es : List Entry)
    (h : entriesOf nodes = .ok es) :
    es.Chain' (fun a b => a.time ≤ b.time) := by
  obtain ⟨t0, i0, rest, htimes, hel⟩ := entriesOf_ok_inv nodes es h
  have hmap := entryList_ok_map nodes _ es hel
  have hsorted : List.Sorted evLE ((t0, i0) :: rest) :=
    htimes ▸ sortEvents_sorted (eventsOf nodes)
  have hpw0 : List.Pairwise evLE ((t0, i0) :: rest) := hsorted
  have hpw : ((t0, i0) :: rest).Pairwise (fun a b : Nat × Nat => a.1 ≤ b.1) :=
    List.Pairwise.imp (fun hab => by unfold evLE at hab; omega) hpw0
  have hge : ∀ e ∈ (t0, i0) :: rest, t0 ≤ e.1 := by
    intro e he
    rcases List.mem_cons.mp he with h1 | h1
    · subst h1; exact le_refl _
    · exact (List.pairwise_cons.mp hpw).1 e h1
  have hchain := (scanLoop_chain ((t0, i0) :: rest) t0 i0 (counterIncr [] i0) hpw hge).1
  rw [hmap, List.chain'_map]
  exact hchain

/-! ## The scan as runs: helpers for the corrected C3 and C4 claims -/

/-- The `(time, node-index)` components of the scan's output, with the
counter bookkeeping erased. -/
def runPairs : (Nat × Nat) → List (Nat × Nat) → List (Nat × Nat)
  | last, [] => [(last.1, last.2)]
  | last, e :: rest =>
    if e.2 ≠ last.2 then (last.1, last.2) :: runPairs e rest else runPairs e rest

theorem scanLoop_map_fst (times : List (Nat × Nat)) (t i : Nat) (s : Counter) :
    (scanLoop times t i s).map (fun tr => (tr.1, tr.2.1)) = runPairs (t, i) times := by
  induction times generalizing t i s with
  | nil => rfl
  | cons e rest ih =>
    obtain ⟨et, ei⟩ := e
    by_cases h : ei ≠ i
    · simp [scanLoop, runPairs, h, ih]
    · simp [scanLoop, runPairs, h, ih et ei (counterIncr s ei)]

theorem chunks_cons (e : Nat × Nat) (rest : List (Nat × Nat)) :
    chunks (e :: rest) =
      match chunks rest with
      | [] => [[e]]
      | r :: rs =>
        if (r.headD (0, 0)).2 = e.2 then (e :: r) :: rs else [e] :: r :: rs := rfl

theorem chunks_head_cons (e : Nat × Nat) (l : List (Nat × Nat)) :
    ∃ r rs, chunks (e :: l) = (e :: r) :: rs := by
  induction l generalizing e with
  | nil => exact ⟨[], [], rfl⟩
  | cons x l' ih =>
    obtain ⟨r, rs, hr⟩ := ih x
    by_cases h : x.2 = e.2
    · exact ⟨x :: r, rs, by rw [chunks_cons, hr]; simp [h]⟩
    · exact ⟨[], (x :: r) :: rs, by rw [chunks_cons, hr]; simp [h]⟩

theorem chunks_flatten (l : List (Nat × Nat)) : (chunks l).flatten = l := by
  induction l with
  | nil => rfl
  | cons e rest ih =>
    cases hr : chunks rest with
    | nil =>
      rw [hr] at ih
      simp only [List.flatten_nil] at ih
      simp [chunks, hr, ← ih]
    | cons r rs =>
      rw [hr] at ih
      by_cases h : (r.headD (0, 0)).2 = e.2 <;>
        simp_all [chunks, hr, h]

theorem runPairs_eq_chunks (l : List (Nat × Nat)) (e : Nat × Nat) :
    runPairs e l = (chunks (e :: l)).map
      (fun r => ((r.getLastD (0, 0)).1, (r.headD (0, 0)).2)) := by
  induction l generalizing e with
  | nil => rfl
  | cons x l' ih =>
    obtain ⟨r, rs, hr⟩ := chunks_head_cons x l'
    by_cases h : x.2 = e.2
    · have h1 : runPairs e (x :: l') = runPairs x l' := by simp [runPairs, h]
      have h2 : chunks (e :: x :: l') = (e :: x :: r) :: rs := by
        rw [chunks_cons, hr]; simp [h]
      rw [h1, ih x, hr, h2]
      simp only [List.map_cons]
      congr 1
      simp [List.getLastD_cons, h]
    · have h1 : runPairs e (x :: l') = (e.1, e.2) :: runPairs x l' := by simp [runPairs, h]
      have h2 : chunks (e :: x :: l') = [e] :: (x :: r) :: rs := by
        rw [chunks_cons, hr]; simp [h]
      rw [h1, ih x, hr, h2]
      simp [List.map_cons, List.getLastD_cons]

theorem counterOfEvents_append (l : List (Nat × Nat)) (e : Nat × Nat) :
    counterOfEvents (l ++ [e]) = counterIncr (counterOfEvents l) e.2 := by
  unfold counterOfEvents
  rw [List.foldl_append]
  rfl

theorem scanLoop_eq_scanRef (times : List (Nat × Nat)) (last : Nat × Nat)
    (processed : List (Nat × Nat)) :
    scanLoop times last.1 last.2 (counterOfEvents processed) =
      scanRef times last processed := by
  induction times generalizing last processed with
  | nil => rfl
  | cons e rest ih =>
    obtain ⟨et, ei⟩ := e
    have hstep := counterOfEvents_append processed (et, ei)
    by_cases h : ei ≠ last.2
    · simp only [scanLoop, scanRef, if_pos h]
      rw [← hstep, ih (et, ei) (processed ++ [(et, ei)]), hstep]
    · simp only [scanLoop, scanRef, if_neg h]
      rw [← hstep, ih (et, ei) (processed ++ [(et, ei)])]

/-- Every element of a chunk carries the node index of the chunk's head:
chunks are constant-index runs. -/
theorem chunks_const (l : List (Nat × Nat)) :
    ∀ r ∈ chunks l, ∀ a ∈ r, a.2 = (r.headD (0, 0)).2 := by
  induction l with
  | nil => simp [chunks]
  | cons e rest ih =>
    cases rest with
    | nil =>
      intro r hrm a ha
      simp only [chunks, List.mem_singleton] at hrm
      subst hrm
      simp only [List.mem_singleton] at ha
      subst ha
      rfl
    | cons x l2 =>
      obtain ⟨r2, rs2, hr⟩ := chunks_head_cons x l2
      by_cases h : x.2 = e.2
      · have h2 : chunks (e :: x :: l2) = (e :: x :: r2) :: rs2 := by
          rw [chunks_cons, hr]; simp [h]
        rw [h2]
        intro r hrm a ha
        rcases List.mem_cons.mp hrm with h3 | h3
        · subst h3
          simp only [List.headD_cons]
          rcases List.mem_cons.mp ha with h4 | h4
          · subst h4; rfl
          · have hmem : (x :: r2) ∈ chunks (x :: l2) := by
              rw [hr]; exact List.mem_cons_self _ _
            have hthis := ih (x :: r2) hmem a h4
            simp only [List.headD_cons] at hthis
            rw [hthis, h]
        · exact ih r (by rw [hr]; exact List.mem_cons_of_mem _ h3) a ha
      · have h2 : chunks (e :: x :: l2) = [e] :: (x :: r2) :: rs2 := by
          rw [chunks_cons, hr]; simp [h]
        rw [h2]
        intro r hrm a ha
        rcases List.mem_cons.mp hrm with h3 | h3
        · subst h3
          simp only [List.mem_singleton] at ha
          subst ha
          rfl
        · exact ih r (by rw [hr]; exact h3) a ha

/-- Adjacent chunks carry different node indices: the runs are maximal. -/
theorem chunks_adjacent_ne (l : List (Nat × Nat)) :
    List.Chain' (fun r1 r2 => (r1.headD (0, 0)).2 ≠ (r2.headD (0, 0)).2) (chunks l) := by
  induction l with
  | nil => simp [chunks]
  | cons e rest ih =>
    cases rest with
    | nil => simp [chunks]
    | cons x l2 =>
      obtain ⟨r2, rs2, hr⟩ := chunks_head_cons x l2
      rw [hr] at ih
      by_cases h : x.2 = e.2
      · have h2 : chunks (e :: x :: l2) = (e :: x :: r2) :: rs2 := by
          rw [chunks_cons, hr]; simp [h]
        rw [h2]
        cases rs2 with
        | nil => simp
        | cons rr rrs =>
          have hc := List.chain'_cons.mp ih
          apply List.Chain'.cons
          · simpa [List.headD_cons, h] using hc.1
          · exact hc.2
      · have h2 : chunks (e :: x :: l2) = [e] :: (x :: r2) :: rs2 := by
          rw [chunks_cons, hr]; simp [h]
        rw [h2]
        apply List.Chain'.cons
        · simp only [List.headD_cons]
          exact fun hh => h hh.symm
        · exact ih

/-! ## The final document contains every header -/

theorem entries_last_document (nodes : List Node) (es : List Entry)
    (_hne : nodes ≠ []) (h : entriesOf nodes = .ok es) :
    ∃ lines, (es.getLastD dummyEntry).text = .ok lines ∧
      ∀ i (hi : i < nodes.length), nodes[i].header ∈ lines := by
  obtain ⟨t0, i0, rest, htimes, hel⟩ := entriesOf_ok_inv nodes es h
  have hmap := entryList_ok_map nodes _ es hel
  have htrs_ne : scanLoop ((t0, i0) :: rest) t0 i0 (counterIncr [] i0) ≠ [] :=
    scanLoop_ne_nil _ _ _ _
  have hperm : ((t0, i0) :: rest).Perm (eventsOf nodes) :=
    htimes ▸ sortEvents_perm (eventsOf nodes)
  have hids_times : ∀ e ∈ (t0, i0) :: rest, e.2 < nodes.length := fun e he =>
    eventsOf_ids_lt nodes e (hperm.mem_iff.mp he)
  have hlast_entry :
      es.getLastD dummyEntry =
        (fun tr : Nat × Nat × Counter =>
          (⟨tr.1, (nodes[tr.2.1]?).getD dummyNode,
            if counterGet tr.2.2 tr.2.1 = 2 then "" else "section: ",
            document nodes tr.2.2⟩ : Entry))
          ((scanLoop ((t0, i0) :: rest) t0 i0 (counterIncr [] i0)).getLastD
            (0, 0, [])) := by
    rw [hmap]
    exact getLastD_map _ _ (0, 0, []) dummyEntry htrs_ne
  set lastTr := (scanLoop ((t0, i0) :: rest) t0 i0 (counterIncr [] i0)).getLastD
    (0, 0, []) with hlastTr
  have hlast_mem : lastTr ∈ scanLoop ((t0, i0) :: rest) t0 i0 (counterIncr [] i0) :=
    getLastD_mem _ _ htrs_ne
  have hc : lastTr.2.2 =
      ((t0, i0) :: rest).foldl (fun c e => counterIncr c e.2) (counterIncr [] i0) :=
    scanLoop_getLastD _ _ _ _ _
  have hs0_pos : ∀ kv ∈ counterIncr ([] : Counter) i0, 0 < kv.2 := by
    intro kv hkv
    simp only [counterIncr, List.mem_singleton] at hkv
    simp [hkv]
  have hs0_keys : ∀ kv ∈ counterIncr ([] : Counter) i0, kv.1 < nodes.length := by
    intro kv hkv
    simp only [counterIncr, List.mem_singleton] at hkv
    subst hkv
    exact hids_times (t0, i0) (List.mem_cons_self _ _)
  have hpos : ∀ kv ∈ lastTr.2.2, 0 < kv.2 :=
    scanLoop_pos _ t0 i0 _ hs0_pos lastTr hlast_mem
  have hkeys : ∀ kv ∈ lastTr.2.2, kv.1 < nodes.length :=
    scanLoop_keys _ t0 i0 _ nodes.length hs0_keys hids_times lastTr hlast_mem
  have hitems : ∀ kv ∈ List.insertionSort evLE lastTr.2.2,
      0 < kv.2 ∧ kv.1 < nodes.length := by
    intro kv hkv
    have hm : kv ∈ lastTr.2.2 := (List.perm_insertionSort evLE lastTr.2.2).mem_iff.mp hkv
    exact ⟨hpos kv hm, hkeys kv hm⟩
  obtain ⟨lines, hlines⟩ := docLines_ok nodes _ hitems
  refine ⟨lines, ?_, ?_⟩
  · rw [hlast_entry]
    exact hlines
  · intro i hi
    have hcount : counterGet lastTr.2.2 i =
        counterGet (counterIncr [] i0) i +
          ((t0, i0) :: rest).countP (fun e => e.2 == i) := by
      rw [hc]
      exact counterGet_foldl _ _ _
    have hmemev : (nodes[i].created, i) ∈ (t0, i0) :: rest :=
      hperm.mem_iff.mpr (created_event_mem nodes i hi)
    have hcp : 0 < ((t0, i0) :: rest).countP (fun e => e.2 == i) :=
      List.countP_pos_iff.mpr ⟨_, hmemev, by simp⟩
    have hgz : counterGet lastTr.2.2 i ≠ 0 := by omega
    have hmemc : (i, counterGet lastTr.2.2 i) ∈ lastTr.2.2 :=
      counterGet_mem _ _ hgz
    have hmem_sorted : (i, counterGet lastTr.2.2 i) ∈ List.insertionSort evLE lastTr.2.2 :=
      (List.perm_insertionSort evLE lastTr.2.2).mem_iff.mpr hmemc
    exact docLines_header_mem nodes _ _ lines nodes[i] hmem_sorted hlines
      (List.getElem?_eq_getElem hi)

/-! ## Claim theorems -/

/-- C1, counterexample.  The spec's worked example — root children A (created
t1, modified t1, text "hello") and B (created t2, modified t3, text "world"),
here at t1 = 1, t2 = 2, t3 = 3 — does *not* produce three entries: the code
emits only two (B's two events are consecutive in the sorted order and are
collapsed, and A's double-counted first event suppresses "hello"
entirely). -/
theorem c1_spec_example_not_three_entries :
    (entriesOf [c1NodeA 1, c1NodeB 2 3]).map List.length = .ok 2 ∧
    (entriesOf [c1NodeA 1, c1NodeB 2 3]).map List.length ≠ .ok 3 :=
  ⟨rfl, by decide⟩

/-- C1, amended claim: on the spec's example tree (t1 < t2 < t3) the code
yields exactly *two* entries: (t1, A, "section: ", doc "* A\n* B\n") and
(t3, B, "", doc "* A\n* B\nworld\n").  A's seen-count is driven to 3 by
the double-counted first event, so its description is "section: " and its
body "hello" never appears; B's creation and modification collapse into the
first entry's snapshot (its header already shows at t1) and it triggers the
final entry at t3. -/
theorem c1_amended_two_entries (t1 t2 t3 : Nat) (h12 : t1 < t2) (h23 : t2 < t3) :
    entriesOf [c1NodeA t1, c1NodeB t2 t3] =
      .ok [⟨t1, c1NodeA t1, "section: ", .ok ["* A\n", "* B\n"]⟩,
           ⟨t3, c1NodeB t2 t3, "", .ok ["* A\n", "* B\n", "world\n"]⟩] := by
  have hsorted : List.Sorted evLE [(t1, 0), (t1, 0), (t2, 1), (t3, 1)] := by
    simp [List.sorted_cons, evLE]
    omega
  have hsort : sortEvents (eventsOf [c1NodeA t1, c1NodeB t2 t3]) =
      [(t1, 0), (t1, 0), (t2, 1), (t3, 1)] := by
    have hev : eventsOf [c1NodeA t1, c1NodeB t2 t3] =
        [(t1, 0), (t1, 0), (t2, 1), (t3, 1)] := rfl
    rw [sortEvents, hev]
    exact List.Sorted.insertionSort_eq hsorted
  unfold entriesOf
  rw [hsort]
  rfl

/-- C1, amended, witness at t1 = 1, t2 = 2, t3 = 3. -/
theorem c1_amended_two_entries_witness :
    entriesOf [c1NodeA 1, c1NodeB 2 3] =
      .ok [⟨1, c1NodeA 1, "section: ", .ok ["* A\n", "* B\n"]⟩,
           ⟨3, c1NodeB 2 3, "", .ok ["* A\n", "* B\n", "world\n"]⟩] :=
  c1_amended_two_entries 1 2 3 (by decide) (by decide)

/-- C2 (code bug), evaluation at the failing input.  Nodes A (created 1,
modified 3, body "hello\n") and B (created 2, modified 2, empty body): the
first entry's rendered document contains A's body "hello\n", but the second
and third entries' documents do not — A's seen-count reaches 3 (the scan
re-iterates the whole event list after already counting its head event) and
the renderer shows a body only at count exactly 2, so the revealed text
disappears again.  The claim (spec §8 "monotonic revelation") describes the
clear intent; the code's `for t, node_id in times:` (instead of
`times_iter`) is the slip. -/
theorem c2_hello_text_disappears_eval :
    (entriesOf [⟨"A", "* A\n", "hello\n", 1, 3⟩, ⟨"B", "* B\n", "", 2, 2⟩]).map
        (fun es => es.map Entry.text) =
      .ok [.ok ["* A\n", "hello\n", "* B\n"], .ok ["* A\n", "* B\n"],
           .ok ["* A\n", "* B\n"]] := rfl

/-- C3, counterexample.  For events [(1,0),(1,0),(2,1),(3,1)] (the sorted
events of the spec's example at t1 = 1, t2 = 2, t3 = 3), the first emitted
triple carries the counter {0 ↦ 3, 1 ↦ 1}: node 1 lies outside the first
run's processed prefix yet has a nonzero count (the boundary event was
counted before the yield), and node 0's count is 3, not the 2 the claim
demands. -/
theorem c3_snapshot_leaks_next_event :
    no_consecutive_duplicates [(1, 0), (1, 0), (2, 1), (3, 1)] =
      .ok [(1, 0, [(0, 3), (1, 1)]), (3, 1, [(0, 3), (1, 2)])] ∧
    counterGet [(0, 3), (1, 1)] 1 = 1 :=
  ⟨rfl, rfl⟩

/-- C3, amended claim: each emitted triple's seen-counts are the event-counts
of an explicit processed prefix, namely the first event of the timeline (which
is counted a second time), all events up to and including the triple's run,
and — for every triple except the final one — the first event of the
following run as well.  Formally, the scan coincides with `scanRef`, which
carries that prefix explicitly and whose counters are `counterOfEvents` of
it. -/
theorem c3_amended_snapshot_prefixes (e0 : Nat × Nat) (rest : List (Nat × Nat)) :
    no_consecutive_duplicates (e0 :: rest) = .ok (scanRef (e0 :: rest) e0 [e0]) := by
  obtain ⟨t0, i0⟩ := e0
  show Except.ok (scanLoop ((t0, i0) :: rest) t0 i0 (counterIncr [] i0)) = _
  rw [show counterIncr [] i0 = counterOfEvents [(t0, i0)] from rfl]
  rw [scanLoop_eq_scanRef ((t0, i0) :: rest) (t0, i0) [(t0, i0)]]

/-- C4, counterexample.  A single node created at 1 and modified at 2 gives
the sorted events [(1,0),(2,0)], one maximal run whose first time is 1; the
code's only emitted triple carries time 2, the run's *last* time. -/
theorem c4_run_time_is_last_not_first :
    (no_consecutive_duplicates [(1, 0), (2, 0)]).map
        (fun trs => trs.map (fun tr => tr.1)) = .ok [2] ∧
    (no_consecutive_duplicates [(1, 0), (2, 0)]).map
        (fun trs => trs.map (fun tr => tr.1)) ≠ .ok [1] :=
  ⟨rfl, by decide⟩

/-- C4, amended claim: for every maximal run of consecutive same-index events
in the event list, the emitted triple carries the time of the *last* event of
the run (and the run's node index): the (time, index) components of the
scan's output are exactly one pair per `chunks` run, pairing the run's last
event's time with its node index. -/
theorem c4_amended_run_last_time (e0 : Nat × Nat) (rest : List (Nat × Nat)) :
    (no_consecutive_duplicates (e0 :: rest)).map
        (fun trs => trs.map (fun tr => (tr.1, tr.2.1))) =
      .ok ((chunks (e0 :: rest)).map
        (fun r => ((r.getLastD (0, 0)).1, (r.headD (0, 0)).2))) := by
  obtain ⟨t0, i0⟩ := e0
  show Except.map _ (.ok (scanLoop ((t0, i0) :: rest) t0 i0 (counterIncr [] i0))) = _
  simp only [Except.map]
  rw [scanLoop_map_fst]
  rw [show runPairs (t0, i0) ((t0, i0) :: rest) = runPairs (t0, i0) rest from by
    simp [runPairs]]
  rw [runPairs_eq_chunks]

/-- C5 (code bug), evaluation at the failing input.  A single node created at
1 and modified at 2 (events [(1,0),(2,0)]): the emitted triple carries
seen-count 3 for node 0, because `next(times_iter)` counts the head event
once and the loop `for t, node_id in times:` then iterates the *list* from
the start and counts it again.  The claim (spec §3: values are only ever 0,
1 or 2) states the clear intent; the dead `times_iter` variable marks the
slip. -/
theorem c5_first_node_counted_thrice_eval :
    no_consecutive_duplicates [(1, 0), (2, 0)] = .ok [(2, 0, [(0, 3)])] ∧
    counterGet [(0, 3)] 0 = 3 :=
  ⟨rfl, rfl⟩

/-- C6, counterexample.  A node whose `ts_creation` attribute is absent makes
the conversion raise `TypeError` (Python `float(None)`), and an unparsable
attribute raises `ValueError` (Python `float("...")`); neither falls back to
the inherited default, contradicting the claim that flattening never raises
for absent or unparsable timestamps. -/
theorem c6_absent_or_malformed_raises :
    get_documents_by_time [.mk "A" none none [] []] 5 = .error .typeError ∧
    get_documents_by_time [.mk "B" (some .malformed) (some (.num 1)) [] []] 5
      = .error .valueError :=
  ⟨rfl, rfl⟩

/-- C6, amended claim: only a timestamp attribute that parses as the falsy
number 0 falls back to the nearest ancestor's resolved timestamp (the root
default at top level), and that resolved value is the default passed to the
node's own children; an absent attribute raises `TypeError` and an
unparsable one raises `ValueError`. -/
theorem c6_amended_zero_falls_back (name : String) (rts : List String)
    (children : List RawNode) (level dc dm : Nat) :
    render_node (.mk name (some (.num 0)) (some (.num 0)) rts children) level dc dm =
      (render_children children (level + 1) dc dm).map
        (fun rest => ⟨name, headerOf level name, fragmentText rts, dc, dm⟩ :: rest) ∧
    render_node (.mk name none (some (.num 0)) rts children) level dc dm
      = .error .typeError ∧
    render_node (.mk name (some .malformed) (some (.num 0)) rts children) level dc dm
      = .error .valueError := by
  refine ⟨?_, rfl, rfl⟩
  cases h : render_children children (level + 1) dc dm with
  | error e => simp [render_node, parse_date, h, Except.map, Bind.bind, Except.bind]
  | ok rest => simp [render_node, parse_date, h, Except.map, Bind.bind, Except.bind]

/-- C7 (confirmed): for every input tree, consecutive entries of
`get_documents_by_time` have non-decreasing times — no commit is requested
out of timeline order. -/
theorem c7_entries_in_timeline_order (rootChildren : List RawNode) (now : Nat)
    (es : List Entry) (h : get_documents_by_time rootChildren now = .ok es) :
    es.Chain' (fun a b => a.time ≤ b.time) := by
  unfold get_documents_by_time at h
  rw [except_bind_ok] at h
  obtain ⟨nodes, _, h2⟩ := h
  exact entries_time_chain nodes es h2

/-- C7, witness: the single node (created 1, modified 2) yields one entry, at
time 2. -/
theorem c7_entries_in_timeline_order_witness :
    List.Chain' (fun a b : Entry => a.time ≤ b.time)
      [⟨2, ⟨"A", "* A\n", "", 1, 2⟩, "section: ", .ok ["* A\n"]⟩] :=
  c7_entries_in_timeline_order [.mk "A" (some (.num 1)) (some (.num 2)) [] []] 7
    [⟨2, ⟨"A", "* A\n", "", 1, 2⟩, "section: ", .ok ["* A\n"]⟩] (by decide)

/-- C8 (confirmed): on a tree whose root has no child nodes the flattened
node sequence is empty, and `get_documents_by_time` does not yield an empty
entry sequence but raises: `next(times_iter)` on the empty event list raises
`StopIteration`, which PEP 479 converts into a `RuntimeError` inside the
generator. -/
theorem c8_empty_tree_runtime_error (now : Nat) :
    get_documents_by_time [] now = .error .runtimeError := rfl

/-- C9 (confirmed): every counter yielded by the timeline scan holds only
strictly positive counts, so rendering any yielded snapshot can never fail
the `assert times_seen` assertion of `document` (for *any* node list — the
only other possible failure is a `KeyError`, which is a different error). -/
theorem c9_scan_counts_positive_assert_ok (times : List (Nat × Nat))
    (trs : List (Nat × Nat × Counter)) (tr : Nat × Nat × Counter)
    (h : no_consecutive_duplicates times = .ok trs) (htr : tr ∈ trs) :
    (∀ kv ∈ tr.2.2, 0 < kv.2) ∧
      ∀ nodes : List Node, document nodes tr.2.2 ≠ .error .assertionError := by
  cases times with
  | nil => exact absurd h (by simp [no_consecutive_duplicates])
  | cons e0 rest =>
    obtain ⟨t0, i0⟩ := e0
    simp only [no_consecutive_duplicates, Except.ok.injEq] at h
    subst h
    have hs0 : ∀ kv ∈ counterIncr ([] : Counter) i0, 0 < kv.2 := by
      intro kv hkv
      simp only [counterIncr, List.mem_singleton] at hkv
      simp [hkv]
    have hpos := scanLoop_pos ((t0, i0) :: rest) t0 i0 (counterIncr [] i0) hs0 tr htr
    refine ⟨hpos, ?_⟩
    intro nodes
    unfold document
    apply docLines_ne_assert
    intro kv hkv
    have hm : kv ∈ tr.2.2 := (List.perm_insertionSort evLE tr.2.2).mem_iff.mp hkv
    exact Nat.pos_iff_ne_zero.mp (hpos kv hm)

/-- C9, witness at the events [(1,0),(2,1)] and the first yielded triple. -/
theorem c9_scan_counts_positive_assert_ok_witness :
    (∀ kv ∈ ([(0, 2), (1, 1)] : Counter), 0 < kv.2) ∧
      ∀ nodes : List Node, document nodes [(0, 2), (1, 1)] ≠ .error .assertionError :=
  c9_scan_counts_positive_assert_ok [(1, 0), (2, 1)]
    [(1, 0, [(0, 2), (1, 1)]), (2, 1, [(0, 2), (1, 1)])]
    (1, 0, [(0, 2), (1, 1)]) (by decide) (by decide)

/-- C10 (confirmed): for every input tree with at least one flattened node,
the last emitted entry's rendered document (as materialised after the scan
completes) contains the header line of every flattened node: by the end of
the scan every node's seen-count is at least 1 (in fact at least 2). -/
theorem c10_last_document_has_all_headers (rootChildren : List RawNode) (now : Nat)
    (nodes : List Node) (es : List Entry)
    (hp : parse_nodes rootChildren now = .ok nodes) (hne : nodes ≠ [])
    (hes : get_documents_by_time rootChildren now = .ok es) :
    ∃ lines, (es.getLastD dummyEntry).text = .ok lines ∧
      ∀ i (hi : i < nodes.length), nodes[i].header ∈ lines := by
  unfold get_documents_by_time at hes
  rw [except_bind_ok] at hes
  obtain ⟨nodes', h1, h2⟩ := hes
  rw [hp] at h1
  have hnn : nodes = nodes' := Except.ok.inj h1
  subst hnn
  exact entries_last_document nodes es hne h2

/-- C10, witness: the single node (created 1, modified 2) — the final (only)
entry's document contains its header. -/
theorem c10_last_document_has_all_headers_witness :
    ∃ lines,
      (([⟨2, ⟨"A", "* A\n", "", 1, 2⟩, "section: ", .ok ["* A\n"]⟩] :
          List Entry).getLastD dummyEntry).text = .ok lines ∧
      ∀ i (hi : i < ([⟨"A", "* A\n", "", 1, 2⟩] : List Node).length),
        ([⟨"A", "* A\n", "", 1, 2⟩] : List Node)[i].header ∈ lines :=
  c10_last_document_has_all_headers [.mk "A" (some (.num 1)) (some (.num 2)) [] []] 7
    [⟨"A", "* A\n", "", 1, 2⟩]
    [⟨2, ⟨"A", "* A\n", "", 1, 2⟩, "section: ", .ok ["* A\n"]⟩]
    (by decide) (by decide) (by decide)
